import Mathlib

/-!
Verification of the Latent Spectral Model training script
(`examples/lsm/run_lsm.py`).

Tensors are modelled as total functions from natural-number indices to
real numbers; the shape of each operation is carried as explicit `ℕ`
parameters, and theorems quantify over indices within bounds.  Floating
point is modelled by exact real arithmetic.
-/

open Real Finset

noncomputable section

namespace RunLSM

/-- Patchify step at the start of `NeuralSpectralBlock2d.forward`:
`x.view(B, C, H//p0, p0, W//p1, p1).permute(0, 2, 4, 1, 3, 5)
  .view(B*(H//p0)*(W//p1), C, p0, p1)`.
The pseudo-batch index `n` flattens `(b, gi, gj)` with `gj` fastest, where
`gi, gj` index the patch grid of shape `(H/p0, W/p1)`. -/
def patchify (H W p0 p1 : ℕ) (x : ℕ → ℕ → ℕ → ℕ → ℝ) : ℕ → ℕ → ℕ → ℕ → ℝ :=
  fun n c i j =>
    x (n / (W / p1) / (H / p0)) c
      ((n / (W / p1) % (H / p0)) * p0 + i)
      ((n % (W / p1)) * p1 + j)

/-- De-patchify step at the end of `NeuralSpectralBlock2d.forward`:
`x.view(B, H//p0, W//p1, C, p0, p1).permute(0, 3, 1, 4, 2, 5).view(B, C, H, W)`.
Spatial position `(h, w)` decomposes into patch-grid cell `(h/p0, w/p1)`
and in-patch offset `(h%p0, w%p1)`. -/
def depatchify (H W p0 p1 : ℕ) (y : ℕ → ℕ → ℕ → ℕ → ℝ) : ℕ → ℕ → ℕ → ℕ → ℝ :=
  fun b c h w =>
    y ((b * (H / p0) + h / p0) * (W / p1) + w / p1) c (h % p0) (w % p1)

/-- A concrete feature map used as witness input. -/
def witnessMap (b c h w : ℕ) : ℝ := b + 2 * c + 4 * h + 16 * w

/-- `NeuralSpectralBlock2d.__init__`:
`modes_list = (1.0 / num_basis) * torch.tensor([i for i in range(num_basis)])`;
entry `i` is `(1 / num_basis) * i`. -/
def modes_list (numBasis : ℕ) (i : ℕ) : ℝ := (1 / (numBasis : ℝ)) * i

/-- `NeuralSpectralBlock2d.get_basis`: expands a scalar token value `x` into
`2 * num_basis` features, `sin(modes_list[j] * x * π)` for `j < num_basis`
followed by `cos(modes_list[j - num_basis] * x * π)` (the `torch.cat` of the
sine block and the cosine block along the last axis). -/
def get_basis (numBasis : ℕ) (x : ℝ) : ℕ → ℝ :=
  fun j =>
    if j < numBasis then Real.sin (modes_list numBasis j * x * Real.pi)
    else Real.cos (modes_list numBasis (j - numBasis) * x * Real.pi)

/-- Sample mean over the leading axis: `torch.mean(x, 0)` for one channel,
over `N` samples. -/
def tmean (N : ℕ) (v : ℕ → ℝ) : ℝ := (∑ s in Finset.range N, v s) / N

/-- Sample standard deviation over the leading axis: `torch.std(x, 0)` for
one channel (torch's default is the Bessel-corrected estimator, divisor
`N - 1`). -/
def tstd (N : ℕ) (v : ℕ → ℝ) : ℝ :=
  Real.sqrt ((∑ s in Finset.range N, (v s - tmean N v) ^ 2) / ((N : ℝ) - 1))

/-- `UnitGaussianNormalizer.__init__`: `self.mean = torch.mean(x, 0)`,
per channel, fitted on `N` samples. -/
def ugnMean (N : ℕ) (data : ℕ → ℕ → ℝ) : ℕ → ℝ :=
  fun i => tmean N (fun s => data s i)

/-- `UnitGaussianNormalizer.__init__`: `self.std = torch.std(x, 0)`,
per channel, fitted on `N` samples. -/
def ugnStd (N : ℕ) (data : ℕ → ℕ → ℝ) : ℕ → ℝ :=
  fun i => tstd N (fun s => data s i)

/-- `UnitGaussianNormalizer.encode`: `(x - mean) / (std + eps)`, pointwise
per channel (broadcast over the remaining axes). -/
def encode (mean std : ℕ → ℝ) (eps : ℝ) (x : ℕ → ℝ) : ℕ → ℝ :=
  fun i => (x i - mean i) / (std i + eps)

/-- `UnitGaussianNormalizer.decode` on the `sample_idx = None` branch:
`x * (std + eps) + mean`, pointwise per channel.  (The `sample_idx` branch
applies the same affine map after index-selecting rows of `mean`/`std`.) -/
def decode (mean std : ℕ → ℝ) (eps : ℝ) (x : ℕ → ℝ) : ℕ → ℝ :=
  fun i => x i * (std i + eps) + mean i

/-- `torch.norm(v, p, 1)` for one row of a tensor reshaped to
`(num_examples, -1)`: `(Σ_{i<n} |v_i|^p)^(1/p)` over the flattened axis of
length `n`. -/
def lpNorm (p : ℝ) (n : ℕ) (v : ℕ → ℝ) : ℝ :=
  (∑ i in Finset.range n, |v i| ^ p) ^ (1 / p)

/-- The `y_norms` divisor of `LpLoss.rel`: the per-sample Lp norm of the
reference field `y`. -/
def yNorms (p : ℝ) (n : ℕ) (y : ℕ → ℕ → ℝ) (b : ℕ) : ℝ :=
  lpNorm p n (fun i => y b i)

/-- `LpLoss.rel`: `torch.sum(diff_norms / y_norms)` over the batch of size
`B`, each sample flattened to length `n`. -/
def rel (p : ℝ) (B n : ℕ) (x y : ℕ → ℕ → ℝ) : ℝ :=
  ∑ b in Finset.range B, lpNorm p n (fun i => x b i - y b i) / yNorms p n y b

/-- `LpLoss.abs`: `torch.sum((h ** (d / p)) * torch.norm(x - y, p, 1))` with
uniform mesh spacing `h = 1.0 / (x.size()[1] - 1.0)`, for a 2-D input of
shape `(B, n)` (so `x.size()[1] = n`, the flattened length). -/
def absLoss (d p : ℝ) (B n : ℕ) (x y : ℕ → ℕ → ℝ) : ℝ :=
  ∑ b in Finset.range B,
    (1 / ((n : ℝ) - 1)) ^ (d / p) * lpNorm p n (fun i => x b i - y b i)

/-- Dot product over the per-head channel axis: the `c` contraction of
`einsum("bhlc,bhsc->bhls", q, k)` for one (batch, head) slice. -/
def dotProd (c : ℕ) (u v : ℕ → ℝ) : ℝ := ∑ i in Finset.range c, u i * v i

/-- Attention weights of `NeuralSpectralBlock2d.self_attn` for one
(batch, head) slice: `Softmax(dim=-1)` over the key axis `s` of the raw
query–key dot products.  (torch's softmax subtracts the per-row maximum
before exponentiating; that stabilisation does not change the value, which
is what is modelled here.) -/
def attnWeight (c S : ℕ) (q k : ℕ → ℕ → ℝ) (l s : ℕ) : ℝ :=
  Real.exp (dotProd c (q l) (k s)) /
    ∑ t in Finset.range S, Real.exp (dotProd c (q l) (k t))

/-- `NeuralSpectralBlock2d.self_attn` output,
`einsum("bhls,bhsc->bhlc", attn, v)`, for one (batch, head) slice. -/
def self_attn (c S : ℕ) (q k v : ℕ → ℕ → ℝ) (l j : ℕ) : ℝ :=
  ∑ s in Finset.range S, attnWeight c S q k l s * v s j

/-- Modelled from the spec's words for comparison (refinement): scaled
dot-product attention weights, with the query–key dot products divided by
the square root of the per-head channel dimension before the softmax. -/
def attnWeightScaledSpec (c S : ℕ) (q k : ℕ → ℕ → ℝ) (l s : ℕ) : ℝ :=
  Real.exp (dotProd c (q l) (k s) / Real.sqrt c) /
    ∑ t in Finset.range S, Real.exp (dotProd c (q l) (k t) / Real.sqrt c)

/-- Concrete query for the C3 counterexample: every query is (2, 0, 0, …). -/
def qWitness : ℕ → ℕ → ℝ := fun _ i => if i = 0 then 2 else 0

/-- Concrete keys for the C3 counterexample: key 1 is (2, 0, 0, …), every
other key is the zero vector. -/
def kWitness : ℕ → ℕ → ℝ := fun s i => if s = 1 ∧ i = 0 then 2 else 0

/-- Python slice `a[:-k]` length on an axis of extent `H`: empty when
`k = 0` (the slice `[:0]`), else `H - k` (truncated at 0). -/
def cropNeg (k H : ℕ) : ℕ := if k = 0 then 0 else H - k

/-- Extent of `Down.forward` along one axis: `MaxPool2d(2)` halves the
extent (floor), and the following `DoubleConv` (3×3 convolutions, padding
1) preserves it. -/
def downExtent (h : ℕ) : ℕ := h / 2

/-- Extent of `Up.forward(x1, x2)` along one axis, where `h1` is `x1`'s
extent and `h2` the skip `x2`'s extent: `x1` is upsampled to `2*h1`, then
`F.pad`ed by `diffY = h2 - 2*h1` split over the two sides (`F.pad` accepts
negative amounts, cropping), so after concatenation with `x2` and the
extent-preserving `DoubleConv` the output extent is exactly `h2`. -/
def upExtent (h1 h2 : ℕ) : ℕ := h2

/-- Spatial extent along one axis through the multiscale path of
`LSM_2D.forward` between the pad and the crop: the stem `DoubleConv`
(`inc`, 3×3 convolutions with padding 1) preserves extent, then four
`Down`s, then four `Up`s against the skip extents; the `NeuralSpectralBlock2d`
applied to each skip preserves its extent, and the final `OutConv`
(1×1 convolution) preserves extent. -/
def multiscaleExtent (h : ℕ) : ℕ :=
  let h1 := h
  let h2 := downExtent h1
  let h3 := downExtent h2
  let h4 := downExtent h3
  let h5 := downExtent h4
  let u1 := upExtent h5 h4
  let u2 := upExtent u1 h3
  let u3 := upExtent u2 h2
  let u4 := upExtent u3 h1
  u4

/-- Spatial extents `(H, W)` of the output of `LSM_2D.forward` for an input
of extent `(H, W)` and configured `padding = [p0, p1]`: `F.pad(x, [0, p0,
0, p1])` (right pad `p0` on W, bottom pad `p1` on H) when the padding list
is not all zero, the multiscale path, then the crop `x[..., :-p1, :-p0]`
under the same guard. -/
def lsmSpatialExtent (p0 p1 H W : ℕ) : ℕ × ℕ :=
  let Hp := if p0 = 0 ∧ p1 = 0 then H else H + p1
  let Wp := if p0 = 0 ∧ p1 = 0 then W else W + p0
  let Hu := multiscaleExtent Hp
  let Wu := multiscaleExtent Wp
  if p0 = 0 ∧ p1 = 0 then (Hu, Wu) else (cropNeg p1 Hu, cropNeg p0 Wu)

/-- Mini-batch sizes yielded by
`DataLoader(TensorDataset(...), batch_size=B, shuffle=True)` as constructed
in `main` for a dataset of `N` samples: `drop_last` is left at its default
`False`, so after `N / B` full batches a final batch of `N % B` samples is
yielded whenever `B` does not divide `N`. -/
def batchSizes (N B : ℕ) : List ℕ :=
  List.replicate (N / B) B ++ (if N % B = 0 then [] else [N % B])

end RunLSM

namespace RunLSM

/-- C1: For every feature map of shape (B, C, H, W) with H divisible by
`patch_size[0]` and W divisible by `patch_size[1]`, the patchify reshape at
the start of `NeuralSpectralBlock2d.forward` followed immediately by the
de-patchify reshape at its end is the identity on the feature map, element
for element and in the same ordering. -/
theorem patchify_depatchify_id (H W p0 p1 : ℕ) (x : ℕ → ℕ → ℕ → ℕ → ℝ)
    (b c h w : ℕ) (hp0 : 0 < p0) (hp1 : 0 < p1)
    (hH : p0 ∣ H) (hW : p1 ∣ W) (hh : h < H) (hw : w < W) :
    depatchify H W p0 p1 (patchify H W p0 p1 x) b c h w = x b c h w := by
  have hHpos : 0 < H := lt_of_le_of_lt (Nat.zero_le h) hh
  have hWpos : 0 < W := lt_of_le_of_lt (Nat.zero_le w) hw
  have hq : 0 < H / p0 := Nat.div_pos (Nat.le_of_dvd hHpos hH) hp0
  have wq : 0 < W / p1 := Nat.div_pos (Nat.le_of_dvd hWpos hW) hp1
  have hhq : h / p0 < H / p0 := Nat.div_lt_div_of_lt_of_dvd hH hh
  have hwq : w / p1 < W / p1 := Nat.div_lt_div_of_lt_of_dvd hW hw
  unfold depatchify patchify
  have e1 : ((b * (H / p0) + h / p0) * (W / p1) + w / p1) % (W / p1) = w / p1 := by
    rw [Nat.mul_comm (b * (H / p0) + h / p0) (W / p1), Nat.mul_add_mod]
    exact Nat.mod_eq_of_lt hwq
  have e2 : ((b * (H / p0) + h / p0) * (W / p1) + w / p1) / (W / p1)
      = b * (H / p0) + h / p0 := by
    rw [Nat.mul_comm (b * (H / p0) + h / p0) (W / p1), Nat.mul_add_div wq,
      Nat.div_eq_of_lt hwq, Nat.add_zero]
  have e3 : (b * (H / p0) + h / p0) % (H / p0) = h / p0 := by
    rw [Nat.mul_comm b (H / p0), Nat.mul_add_mod]
    exact Nat.mod_eq_of_lt hhq
  have e4 : (b * (H / p0) + h / p0) / (H / p0) = b := by
    rw [Nat.mul_comm b (H / p0), Nat.mul_add_div hq,
      Nat.div_eq_of_lt hhq, Nat.add_zero]
  rw [e1, e2, e3, e4, Nat.div_add_mod' h p0, Nat.div_add_mod' w p1]

/-- Witness for C1 at a concrete input: H = W = 4, patch size 2×2,
position (b, c, h, w) = (0, 0, 3, 1). -/
theorem patchify_depatchify_id_witness :
    0 < 2 ∧ (2 ∣ 4) ∧ 3 < 4 ∧ 1 < 4 ∧
    depatchify 4 4 2 2 (patchify 4 4 2 2 witnessMap) 0 0 3 1
      = witnessMap 0 0 3 1 := by
  refine ⟨by decide, by decide, by decide, by decide, ?_⟩
  exact patchify_depatchify_id 4 4 2 2 witnessMap 0 0 3 1 (by decide) (by decide)
    (by decide) (by decide) (by decide) (by decide)

/-- C2 counterexample: with `num_basis = 1` the single mode is
`modes_list[0] = 0`, so at token value `x = 1` the cosine feature produced by
`get_basis` is `cos 0 = 1`, not `cos (π · 1) = -1` as the claim's formula
`[sin(πx), cos(πx)]` requires. -/
theorem get_basis_one_ne_cos_pi : get_basis 1 1 1 ≠ Real.cos (Real.pi * 1) := by
  have hlhs : get_basis 1 1 1 = 1 := by
    unfold get_basis modes_list
    norm_num
  have hrhs : Real.cos (Real.pi * 1) = -1 := by
    rw [mul_one, Real.cos_pi]
  rw [hlhs, hrhs]
  norm_num

/-- C2 (amended): `get_basis` is a deterministic function of the token value
and the basis count, and for `num_basis = 1` it maps every token value `x` to
exactly the pair `[sin 0, cos 0] = [0, 1]` (the single mode is 0, so both
features are independent of `x`). -/
theorem get_basis_num_basis_one (x : ℝ) :
    get_basis 1 x 0 = 0 ∧ get_basis 1 x 1 = 1 := by
  unfold get_basis modes_list
  norm_num

/-- C10: For every configured `num_basis ≥ 1` and every input token value,
the lowest basis frequency `modes_list[0]` is 0, so the first of the
`num_basis` sine features is identically 0 and the first of the `num_basis`
cosine features (index `num_basis` in the concatenated output) is
identically 1, independent of the input. -/
theorem get_basis_first_mode_constant (numBasis : ℕ) (x : ℝ)
    (h : 1 ≤ numBasis) :
    modes_list numBasis 0 = 0 ∧
    get_basis numBasis x 0 = 0 ∧ get_basis numBasis x numBasis = 1 := by
  have h0 : (0:ℕ) < numBasis := h
  refine ⟨by simp [modes_list], ?_, ?_⟩
  · rw [get_basis, if_pos h0]
    simp [modes_list]
  · rw [get_basis, if_neg (lt_irrefl numBasis), Nat.sub_self]
    simp [modes_list]

/-- Witness for C10 at the configured `num_basis = 12` and token value 5. -/
theorem get_basis_first_mode_constant_witness :
    1 ≤ 12 ∧
    (modes_list 12 0 = 0 ∧
     get_basis 12 (5:ℝ) 0 = 0 ∧ get_basis 12 (5:ℝ) 12 = 1) :=
  ⟨by decide, get_basis_first_mode_constant 12 5 (by decide)⟩

/-- C4: For every tensor broadcast-compatible with the fitted per-channel
mean and std, `UnitGaussianNormalizer` satisfies the round trip
`decode(encode(x)) = x` in exact arithmetic, including channels with zero
variance, where the fitted std is 0 and `std + ε = ε > 0`. -/
theorem decode_encode_id (N : ℕ) (data : ℕ → ℕ → ℝ) (eps : ℝ) (x : ℕ → ℝ)
    (i : ℕ) (heps : 0 < eps) :
    decode (ugnMean N data) (ugnStd N data) eps
      (encode (ugnMean N data) (ugnStd N data) eps x) i = x i := by
  have hstd : 0 ≤ ugnStd N data i := Real.sqrt_nonneg _
  have hne : ugnStd N data i + eps ≠ 0 := by linarith
  unfold decode encode
  rw [div_mul_cancel₀ _ hne]
  ring

/-- Witness for C4 at a concrete input: two constant fitting samples (a
zero-variance channel), `ε = 1e-5`, decoding the encoding of the constant
3 at channel 0. -/
theorem decode_encode_id_witness :
    0 < (1/100000 : ℝ) ∧
    decode (ugnMean 2 (fun _ _ => 0)) (ugnStd 2 (fun _ _ => 0)) (1/100000)
      (encode (ugnMean 2 (fun _ _ => 0)) (ugnStd 2 (fun _ _ => 0)) (1/100000)
        (fun _ => 3)) 0 = 3 :=
  ⟨by norm_num,
   decode_encode_id 2 (fun _ _ => 0) (1/100000) (fun _ => 3) 0 (by norm_num)⟩

/-- C3 counterexample: the encoder/decoder attention of
`NeuralSpectralBlock2d` does not divide the query–key dot products by the
square root of the per-head channel dimension.  With per-head dimension 4,
query (2,0,0,0) and keys (0,0,0,0) and (2,0,0,0), the weight on key 0 is
`1/(1+e⁴)` in the code but `1/(1+e²)` under the claimed scaling. -/
theorem self_attn_not_scaled :
    attnWeight 4 2 qWitness kWitness 0 0
      ≠ attnWeightScaledSpec 4 2 qWitness kWitness 0 0 := by
  have hd0 : dotProd 4 (qWitness 0) (kWitness 0) = 0 := by
    simp [dotProd, qWitness, kWitness, Finset.sum_range_succ]
  have hd1 : dotProd 4 (qWitness 0) (kWitness 1) = 4 := by
    norm_num [dotProd, qWitness, kWitness, Finset.sum_range_succ]
  have hsqrt : Real.sqrt ((4:ℕ):ℝ) = 2 := by
    rw [show ((4:ℕ):ℝ) = 2 ^ 2 by norm_num, Real.sqrt_sq (by norm_num)]
  unfold attnWeight attnWeightScaledSpec
  rw [Finset.sum_range_succ, Finset.sum_range_succ, Finset.sum_range_zero,
    Finset.sum_range_succ, Finset.sum_range_succ, Finset.sum_range_zero,
    hd0, hd1, hsqrt]
  norm_num

/-- C3 (amended): the per-head attention weights of `self_attn` are the
softmax over the key axis of the raw (unscaled) query–key dot products:
they are nonnegative, sum to 1 over the key axis, and the attention output
is the corresponding convex combination of the value rows. -/
theorem self_attn_weights_softmax_unscaled (c S : ℕ) (q k v : ℕ → ℕ → ℝ)
    (l j : ℕ) (hS : 0 < S) :
    (∀ s, 0 ≤ attnWeight c S q k l s) ∧
    (∑ s in Finset.range S, attnWeight c S q k l s = 1) ∧
    self_attn c S q k v l j
      = ∑ s in Finset.range S, attnWeight c S q k l s * v s j := by
  have hpos : 0 < ∑ t in Finset.range S, Real.exp (dotProd c (q l) (k t)) :=
    Finset.sum_pos (fun t _ => Real.exp_pos _)
      (Finset.nonempty_range_iff.mpr hS.ne')
  refine ⟨fun s => div_nonneg (Real.exp_pos _).le hpos.le, ?_, rfl⟩
  unfold attnWeight
  rw [← Finset.sum_div]
  exact div_self hpos.ne'

/-- Witness for C3's amended theorem with one key and per-head dimension 1. -/
theorem self_attn_weights_softmax_unscaled_witness :
    0 < 1 ∧
    ((∀ s, 0 ≤ attnWeight 1 1 qWitness kWitness 0 s) ∧
     (∑ s in Finset.range 1, attnWeight 1 1 qWitness kWitness 0 s = 1) ∧
     self_attn 1 1 qWitness kWitness qWitness 0 0
       = ∑ s in Finset.range 1, attnWeight 1 1 qWitness kWitness 0 s * qWitness s 0) :=
  ⟨by decide,
   self_attn_weights_softmax_unscaled 1 1 qWitness kWitness qWitness 0 0 (by decide)⟩

/-- `lpNorm` is nonnegative. -/
theorem lpNorm_nonneg (p : ℝ) (n : ℕ) (v : ℕ → ℝ) : 0 ≤ lpNorm p n v :=
  Real.rpow_nonneg
    (Finset.sum_nonneg fun i _ => Real.rpow_nonneg (abs_nonneg _) _) _

/-- `lpNorm` is absolutely homogeneous in the row. -/
theorem lpNorm_smul (p : ℝ) (hp : 0 < p) (n : ℕ) (k : ℝ) (v : ℕ → ℝ) :
    lpNorm p n (fun i => k * v i) = |k| * lpNorm p n v := by
  unfold lpNorm
  have h1 : ∀ i : ℕ, |k * v i| ^ p = |k| ^ p * |v i| ^ p := fun i => by
    rw [abs_mul, Real.mul_rpow (abs_nonneg _) (abs_nonneg _)]
  simp only [h1]
  rw [← Finset.mul_sum,
    Real.mul_rpow (Real.rpow_nonneg (abs_nonneg _) _)
      (Finset.sum_nonneg fun i _ => Real.rpow_nonneg (abs_nonneg _) _),
    ← Real.rpow_mul (abs_nonneg _), mul_one_div_cancel hp.ne', Real.rpow_one]

/-- `lpNorm` vanishes exactly on rows that are zero within bounds. -/
theorem lpNorm_eq_zero_iff (p : ℝ) (hp : 0 < p) (n : ℕ) (v : ℕ → ℝ) :
    lpNorm p n v = 0 ↔ ∀ i < n, v i = 0 := by
  unfold lpNorm
  have hS : 0 ≤ ∑ i in Finset.range n, |v i| ^ p :=
    Finset.sum_nonneg fun i _ => Real.rpow_nonneg (abs_nonneg _) _
  rw [Real.rpow_eq_zero hS (one_div_ne_zero hp.ne'),
    Finset.sum_eq_zero_iff_of_nonneg fun i _ => Real.rpow_nonneg (abs_nonneg _) _]
  constructor
  · intro h i hi
    have h2 := h i (Finset.mem_range.mpr hi)
    rwa [Real.rpow_eq_zero (abs_nonneg _) hp.ne', abs_eq_zero] at h2
  · intro h i hi
    rw [h i (Finset.mem_range.mp hi), abs_zero, Real.zero_rpow hp.ne']

/-- C5: `LpLoss.rel` is scale-invariant: for every nonzero scalar `k`, every
norm order `p ≥ 1`, and all batched fields `x`, `y` (`y` with nonzero
per-sample norm), `rel (k·x) (k·y) = rel x y`. -/
theorem rel_scale_invariant (p : ℝ) (B n : ℕ) (x y : ℕ → ℕ → ℝ) (k : ℝ)
    (hp : 1 ≤ p) (hk : k ≠ 0) (hy : ∀ b, b < B → yNorms p n y b ≠ 0) :
    rel p B n (fun b i => k * x b i) (fun b i => k * y b i) = rel p B n x y := by
  have hp0 : 0 < p := lt_of_lt_of_le one_pos hp
  unfold rel yNorms
  refine Finset.sum_congr rfl fun b _ => ?_
  have e1 : lpNorm p n (fun i => k * x b i - k * y b i)
      = |k| * lpNorm p n (fun i => x b i - y b i) := by
    have hdiff : (fun i => k * x b i - k * y b i)
        = fun i => k * (x b i - y b i) := by
      funext i; ring
    rw [hdiff, lpNorm_smul p hp0 n k]
  have e2 : lpNorm p n (fun i => k * y b i) = |k| * lpNorm p n (fun i => y b i) :=
    lpNorm_smul p hp0 n k _
  simp only [e1, e2]
  exact mul_div_mul_left _ _ (abs_ne_zero.mpr hk)

/-- Witness for C5 at a concrete input: `p = 2`, `k = 2`, batch 1, one
element per sample, `x ≡ 0`, `y ≡ 1`. -/
theorem rel_scale_invariant_witness :
    (1:ℝ) ≤ 2 ∧ (2:ℝ) ≠ 0 ∧ (∀ b, b < 1 → yNorms 2 1 (fun _ _ => 1) b ≠ 0) ∧
    rel 2 1 1 (fun b i => 2 * (fun _ _ => (0:ℝ)) b i)
        (fun b i => 2 * (fun _ _ => (1:ℝ)) b i)
      = rel 2 1 1 (fun _ _ => 0) (fun _ _ => 1) := by
  have hy : ∀ b, b < 1 → yNorms 2 1 (fun _ _ => (1:ℝ)) b ≠ 0 := by
    intro b _
    unfold yNorms lpNorm
    rw [Finset.sum_range_one, abs_one, Real.one_rpow, Real.one_rpow]
    norm_num
  exact ⟨by norm_num, by norm_num, hy,
    rel_scale_invariant 2 1 1 (fun _ _ => 0) (fun _ _ => 1) 2
      (by norm_num) (by norm_num) hy⟩

/-- C9: `LpLoss.rel` divides by the per-sample norm `y_norms` of the
reference field with no guard: when a reference row is identically zero its
divisor is exactly zero, so the division is safe only under the
precondition that every sample of `y` has nonzero norm. -/
theorem rel_divisor_zero_for_zero_reference (p : ℝ) (n : ℕ) (y : ℕ → ℕ → ℝ)
    (b : ℕ) (hp : 0 < p) (hy : ∀ i, i < n → y b i = 0) :
    yNorms p n y b = 0 := by
  unfold yNorms
  rw [lpNorm_eq_zero_iff p hp n]
  exact hy

/-- Witness for C9: with a zero reference field, the divisor of `rel` at
sample 0 is exactly 0. -/
theorem rel_divisor_zero_for_zero_reference_witness :
    0 < (2:ℝ) ∧ yNorms 2 1 (fun _ _ => 0) 0 = 0 :=
  ⟨by norm_num,
   rel_divisor_zero_for_zero_reference 2 1 (fun _ _ => 0) 0 (by norm_num)
     (fun _ _ => rfl)⟩

/-- C6: For finite batched fields of shape `(B, n)` with `n ≥ 2` (so the
uniform-mesh spacing `h = 1/(n-1)` of `LpLoss.abs` is finite and positive)
and the construction-time invariants `d > 0`, `p > 0` of `LpLoss`, the
absolute loss is zero iff `x = y` elementwise, and strictly positive
whenever they differ. -/
theorem absLoss_eq_zero_iff (d p : ℝ) (B n : ℕ) (x y : ℕ → ℕ → ℝ)
    (hd : 0 < d) (hp : 0 < p) (hn : 1 < n) :
    (absLoss d p B n x y = 0 ↔ ∀ b < B, ∀ i < n, x b i = y b i) ∧
    ((∃ b, b < B ∧ ∃ i, i < n ∧ x b i ≠ y b i) → 0 < absLoss d p B n x y) := by
  have hn' : (1:ℝ) < (n:ℝ) := by exact_mod_cast hn
  have hh : 0 < 1 / ((n:ℝ) - 1) := by
    apply div_pos one_pos; linarith
  have hH : 0 < (1 / ((n:ℝ) - 1)) ^ (d / p) := Real.rpow_pos_of_pos hh _
  have hterm : ∀ b,
      0 ≤ (1 / ((n:ℝ) - 1)) ^ (d / p) * lpNorm p n (fun i => x b i - y b i) :=
    fun b => mul_nonneg hH.le (lpNorm_nonneg p n _)
  have key : ∀ b,
      ((1 / ((n:ℝ) - 1)) ^ (d / p) * lpNorm p n (fun i => x b i - y b i) = 0
        ↔ ∀ i < n, x b i = y b i) := by
    intro b
    rw [mul_eq_zero]
    constructor
    · rintro (h | h)
      · exact absurd h hH.ne'
      · intro i hi
        have h2 : x b i - y b i = 0 := (lpNorm_eq_zero_iff p hp n _).mp h i hi
        linarith
    · intro h
      exact Or.inr ((lpNorm_eq_zero_iff p hp n _).mpr fun i hi => by
        rw [h i hi]; ring)
  have hiff : absLoss d p B n x y = 0 ↔ ∀ b < B, ∀ i < n, x b i = y b i := by
    unfold absLoss
    rw [Finset.sum_eq_zero_iff_of_nonneg fun b _ => hterm b]
    constructor
    · intro h b hb i hi
      exact (key b).mp (h b (Finset.mem_range.mpr hb)) i hi
    · intro h b hb
      exact (key b).mpr fun i hi => h b (Finset.mem_range.mp hb) i hi
  refine ⟨hiff, ?_⟩
  rintro ⟨b, hb, i, hi, hne⟩
  have h0 : 0 ≤ absLoss d p B n x y := by
    unfold absLoss
    exact Finset.sum_nonneg fun b _ => hterm b
  rcases h0.lt_or_eq with hlt | heq
  · exact hlt
  · exact absurd (hiff.mp heq.symm b hb i hi) hne

/-- Witness for C6 at a concrete input: `d = p = 2`, one sample with two
equal elements. -/
theorem absLoss_eq_zero_iff_witness :
    0 < (2:ℝ) ∧ 1 < 2 ∧
    ((absLoss 2 2 1 2 (fun _ _ => 0) (fun _ _ => 0) = 0
        ↔ ∀ b < 1, ∀ i < 2, (fun _ _ => (0:ℝ)) b i = (fun _ _ => (0:ℝ)) b i) ∧
     ((∃ b, b < 1 ∧ ∃ i, i < 2 ∧
          (fun _ _ => (0:ℝ)) b i ≠ (fun _ _ => (0:ℝ)) b i)
        → 0 < absLoss 2 2 1 2 (fun _ _ => 0) (fun _ _ => 0))) :=
  ⟨by norm_num, by decide,
   absLoss_eq_zero_iff 2 2 1 2 (fun _ _ => 0) (fun _ _ => 0)
     (by norm_num) (by norm_num) (by decide)⟩

/-- C7: For every input of spatial extent `(H, W)` to `LSM_2D.forward` with
nonzero configured padding `[p0, p1]` (both entries nonzero), the
right/bottom zero-padding applied after the input projection is exactly
removed by the crop after the output projection, so the predicted field has
the same spatial extent `(H, W)` as the input. -/
theorem lsm_forward_extent (p0 p1 H W : ℕ) (h0 : 0 < p0) (h1 : 0 < p1) :
    lsmSpatialExtent p0 p1 H W = (H, W) := by
  have hg : ¬(p0 = 0 ∧ p1 = 0) := fun h => h0.ne' h.1
  simp only [lsmSpatialExtent, multiscaleExtent, downExtent, upExtent, cropNeg]
  rw [if_neg hg]
  rw [if_neg h1.ne', if_neg h0.ne']
  simp only [if_neg hg]
  simp [Nat.add_sub_cancel]

/-- Witness for C7 at the configured padding `[11, 11]` and the run's
native spatial extent 85×85 (`(421 - 1)/5 + 1`). -/
theorem lsm_forward_extent_witness :
    0 < 11 ∧ lsmSpatialExtent 11 11 85 85 = (85, 85) :=
  ⟨by decide, lsm_forward_extent 11 11 85 85 (by decide) (by decide)⟩

/-- C8 counterexample: the training `DataLoader` is constructed without
`drop_last=True`, so for a training-set size of 5 and batch size 2 the
yielded batch sizes are `[2, 2, 1]`: the size is not divisible by the batch
size, yet not every yielded mini-batch has exactly `batch_size` samples. -/
theorem batchSizes_not_all_full :
    5 % 2 ≠ 0 ∧ ¬ (∀ s ∈ batchSizes 5 2, s = 2) := by
  refine ⟨by decide, fun h => ?_⟩
  exact absurd (h 1 (by decide)) (by decide)

/-- C8 (amended): the loader does not discard incomplete trailing batches:
the yielded batch sizes sum to the dataset size `N`, and when the batch
size `B` does not divide `N` the final batch has `N % B < B` samples. -/
theorem batchSizes_sum_and_last (N B : ℕ) (hB : 0 < B) :
    (batchSizes N B).sum = N ∧
    (N % B ≠ 0 → (batchSizes N B).getLast? = some (N % B) ∧ N % B < B) := by
  constructor
  · unfold batchSizes
    rw [List.sum_append, List.sum_replicate, smul_eq_mul]
    by_cases h : N % B = 0
    · rw [if_pos h, List.sum_nil, Nat.add_zero,
        Nat.div_mul_cancel (Nat.dvd_of_mod_eq_zero h)]
    · rw [if_neg h, List.sum_cons, List.sum_nil, Nat.add_zero, Nat.mul_comm]
      exact Nat.div_add_mod N B
  · intro h
    unfold batchSizes
    rw [if_neg h]
    exact ⟨List.getLast?_concat _, Nat.mod_lt _ hB⟩

/-- Witness for C8's amended theorem at `N = 5`, `B = 2`. -/
theorem batchSizes_sum_and_last_witness :
    0 < 2 ∧
    ((batchSizes 5 2).sum = 5 ∧
     (5 % 2 ≠ 0 → (batchSizes 5 2).getLast? = some (5 % 2) ∧ 5 % 2 < 2)) :=
  ⟨by decide, batchSizes_sum_and_last 5 2 (by decide)⟩

end RunLSM

end
